import Mathlib

/-!
Shallow embedding of the `goodchuck/goodchuck-utils` TypeScript library.

JavaScript strings are modelled as `List Char` (`JStr`); JavaScript numbers
appearing in the price utilities are modelled as rationals (`ℚ`), which agrees
with IEEE-754 binary64 arithmetic on the concrete inputs considered here.
Fallible host interactions (clipboard, storage, JSON parsing) are modelled as
explicit outcome values, so that "the function does not throw" corresponds to
totality of the embedded function.
-/

namespace GoodchuckUtils

/-- JavaScript strings, modelled as lists of characters. -/
abbrev JStr := List Char

/-! ## `src/string/manipulation.ts` -/

/-- Embedding of `truncate(str, length, suffix = '...')`:
`if (str.length <= length) return str; return str.slice(0, length) + suffix;` -/
def truncate (str : JStr) (length : Nat) (suffix : JStr) : JStr :=
  if str.length ≤ length then str else str.take length ++ suffix

/-! ## `src/form/formatter.ts` -/

/-- Embedding of `value.replace(/[^0-9]/g, '')`: keep only decimal digits. -/
def cleanDigits (value : JStr) : JStr := value.filter Char.isDigit

/-- The branch structure of `formatPhoneNumber` applied to the cleaned digit
string: `slice(a, b)` is `(drop a).take (b - a)`. -/
def formatFromCleaned (cleaned : JStr) : JStr :=
  if cleaned.length ≤ 3 then cleaned
  else if cleaned.length ≤ 7 then
    cleaned.take 3 ++ '-' :: cleaned.drop 3
  else if cleaned.length ≤ 11 then
    cleaned.take 3 ++ '-' :: ((cleaned.drop 3).take 4 ++ '-' :: cleaned.drop 7)
  else
    cleaned.take 3 ++ '-' :: ((cleaned.drop 3).take 4 ++ '-' :: (cleaned.drop 7).take 4)

/-- Embedding of `formatPhoneNumber(value)` from `src/form/formatter.ts`. -/
def formatPhoneNumber (value : JStr) : JStr :=
  formatFromCleaned (cleanDigits value)

/-! ## Price utilities (`calculateDiscount`, `calculateDiscountedPrice`) -/

/-- JavaScript `Math.round` on the rationals: round half toward `+∞`. -/
def mathRound (x : ℚ) : ℤ := ⌊x + 1 / 2⌋

/-- Embedding of `calculateDiscount(originalPrice, discountedPrice)`:
guard `originalPrice <= 0` returns `0`, otherwise the percentage rounded to
two decimal places via `Math.round(discount * 100) / 100`. -/
def calculateDiscount (originalPrice discountedPrice : ℚ) : ℚ :=
  if originalPrice ≤ 0 then 0
  else
    let discount := (originalPrice - discountedPrice) / originalPrice * 100
    (mathRound (discount * 100) : ℚ) / 100

/-- Embedding of `calculateDiscountedPrice(originalPrice, discountPercent)`. -/
def calculateDiscountedPrice (originalPrice discountPercent : ℚ) : ℚ :=
  let discount := originalPrice * discountPercent / 100
  (mathRound ((originalPrice - discount) * 100) : ℚ) / 100

/-! ## `src/hooks/useCopyToClipboard.ts`

The host clipboard is modelled as an environment value: either the Clipboard
API is missing (`navigator?.clipboard` is undefined), or `writeText` resolves,
or `writeText` rejects with some error. The hook state `copiedText` is passed
explicitly; `copy` returns the boolean result together with the new state. -/

/-- Outcome of the platform `navigator.clipboard.writeText` call. -/
inductive ClipboardWrite where
  | resolves
  | rejects (error : JStr)
deriving DecidableEq

/-- Host clipboard environment: API missing, or present with a write outcome. -/
inductive ClipboardEnv where
  | unavailable
  | available (write : ClipboardWrite)
deriving DecidableEq

/-- Embedding of the `copy` closure returned by `useCopyToClipboard`.
An unavailable API warns and returns `false` without touching state; a
rejected write is caught, sets `copiedText` to `null`, and returns `false`;
a successful write sets `copiedText` to the text and returns `true`. -/
def copy (env : ClipboardEnv) (text : JStr) (copiedText : Option JStr) :
    Bool × Option JStr :=
  match env with
  | .unavailable => (false, copiedText)
  | .available .resolves => (true, some text)
  | .available (.rejects _) => (false, none)

/-! ## `useLocalStorage` — `readValue`

The host storage read is modelled as an outcome: not in a browser, or
`getItem` throws, or the key is absent (`null`/empty, falsy), or the stored
string fails `JSON.parse`, or it parses to a value. -/

/-- Outcome of `window.localStorage.getItem(key)` followed by `JSON.parse`. -/
inductive StorageRead (T : Type) where
  | getItemThrows
  | absent
  | parseThrows
  | parsed (v : T)
deriving DecidableEq

/-- Embedding of `readValue` from the `useLocalStorage` hook: outside a
browser return the initial value; otherwise every caught failure and the
absent-key case fall back to the initial value. -/
def readValue {T : Type} (isBrowser : Bool) (read : StorageRead T)
    (initialValue : T) : T :=
  if isBrowser then
    match read with
    | .getItemThrows => initialValue
    | .absent => initialValue
    | .parseThrows => initialValue
    | .parsed v => v
  else initialValue

/-! ## JavaScript values and `JSON.stringify`

The values held by form snapshots are modelled as a JSON-like datatype:
`undefined`, `null`, booleans, (integer) numbers, strings and plain objects.
Objects are ordered association lists, mirroring JavaScript's insertion-order
key enumeration. -/

mutual
inductive JsonValue where
  | undefined
  | null
  | bool (b : Bool)
  | num (n : Int)
  | str (s : JStr)
  | obj (fields : JsonFields)
inductive JsonFields where
  | nil
  | cons (key : JStr) (value : JsonValue) (rest : JsonFields)
end

/-- JSON string escaping for the characters the model covers. -/
def quoteJsonChar (c : Char) : JStr :=
  if c = '"' then ['\\', '"']
  else if c = '\\' then ['\\', '\\']
  else [c]

/-- A JSON string literal: quoted and escaped. -/
def quoteJson (s : JStr) : JStr :=
  '"' :: (s.map quoteJsonChar).flatten ++ ['"']

mutual
/-- Embedding of `JSON.stringify`: `undefined` serializes to no string at all
(`JSON.stringify(undefined) === undefined`), which the model renders as
`none`; object fields whose value is `undefined` are dropped. -/
def jsonStringify : JsonValue → Option JStr
  | .undefined => none
  | .null => some ("null".toList)
  | .bool true => some ("true".toList)
  | .bool false => some ("false".toList)
  | .num n => some ((toString n).toList)
  | .str s => some (quoteJson s)
  | .obj fields => some ('\x7b' :: jsonStringifyFields fields ++ ['\x7d'])
/-- Comma-joined `"key":value` renderings of an object's fields, skipping
fields whose value serializes to nothing. -/
def jsonStringifyFields : JsonFields → JStr
  | .nil => []
  | .cons k v rest =>
    match jsonStringify v, jsonStringifyFields rest with
    | none, r => r
    | some sv, [] => quoteJson k ++ ':' :: sv
    | some sv, r => quoteJson k ++ ':' :: sv ++ ',' :: r
end

/-- JavaScript property lookup on an object's field list: a missing key
yields `undefined`. -/
def JsonFields.lookup : JsonFields → JStr → JsonValue
  | .nil, _ => .undefined
  | .cons k v rest, key => if k = key then v else rest.lookup key

/-- Embedding of `acc?.[key]`: property access on a non-object (or on
`undefined`/`null` through optional chaining) yields `undefined`. -/
def getProp : JsonValue → JStr → JsonValue
  | .obj fields, key => fields.lookup key
  | _, _ => .undefined

/-- Embedding of `path.split('.')` for a single-character separator:
`"".split('.')` is `[""]`. -/
def splitOnDot : JStr → List JStr
  | [] => [[]]
  | c :: cs =>
    if c = '.' then [] :: splitOnDot cs
    else
      match splitOnDot cs with
      | [] => [[c]]
      | p :: ps => (c :: p) :: ps

/-! ## `src/components/dev/FormDevTools/FormDevTools.tsx` — `getChangedFields` -/

/-- The `dirtyFields` marker tree of react-hook-form: a record whose entries
are booleans or nested records. The record is embedded with one constructor
per entry shape, preserving entry order. -/
inductive DirtyFields where
  | nil
  | consBool (key : JStr) (b : Bool) (rest : DirtyFields)
  | consNode (key : JStr) (child : DirtyFields) (rest : DirtyFields)
deriving DecidableEq

/-- A marker found while walking the tree along a path. -/
inductive DirtyValue where
  | bool (b : Bool)
  | node (fields : DirtyFields)
deriving DecidableEq

/-- One `{from, to}` entry of the changed-fields result. -/
structure ChangedEntry where
  fromVal : JsonValue
  toVal : JsonValue

/-- Embedding of `getNestedValue(obj, path)`:
`path.split('.').reduce((acc, key) => acc?.[key], obj)`. -/
def getNestedValue (obj : JsonFields) (path : JStr) : JsonValue :=
  (splitOnDot path).foldl getProp (JsonValue.obj obj)

/-- Embedding of `` prefix ? `${prefix}.${key}` : key `` (the empty string is
falsy). -/
def joinPath (pre : JStr) (key : JStr) : JStr :=
  if pre = [] then key else pre ++ '.' :: key

/-- Embedding of
`originalValues ? getNestedValue(originalValues, fullPath) : undefined`. -/
def getOriginalValue (originalValues : Option JsonFields) (path : JStr) : JsonValue :=
  match originalValues with
  | some ov => getNestedValue ov path
  | none => .undefined

/-- Embedding of `processDirtyFields(dirty, prefix)`. The mutated `changed`
record is modelled as the ordered list of assignments it receives: a marker
that is literally `true` contributes an entry when the serialized current and
original values differ; an object-valued marker is recursed into with the
extended dot-joined path; any other marker (e.g. `false`) contributes
nothing. -/
def processDirtyFields (values : JsonFields) (originalValues : Option JsonFields) :
    DirtyFields → JStr → List (JStr × ChangedEntry)
  | .nil, _ => []
  | .consBool key b rest, pre =>
    (if b then
      if jsonStringify (getNestedValue values (joinPath pre key)) ≠
          jsonStringify (getOriginalValue originalValues (joinPath pre key)) then
        [(joinPath pre key,
          ⟨getOriginalValue originalValues (joinPath pre key),
            getNestedValue values (joinPath pre key)⟩)]
      else []
    else []) ++ processDirtyFields values originalValues rest pre
  | .consNode key child rest, pre =>
    processDirtyFields values originalValues child (joinPath pre key) ++
      processDirtyFields values originalValues rest pre

/-- Embedding of `getChangedFields()`: if `formState.dirtyFields` or `values`
is missing the result is the empty record, otherwise the walk starts with the
empty path prefix. -/
def getChangedFields (dirtyFields : Option DirtyFields) (values : Option JsonFields)
    (originalValues : Option JsonFields) : List (JStr × ChangedEntry) :=
  match dirtyFields, values with
  | some df, some vs => processDirtyFields vs originalValues df []
  | _, _ => []

/-! Specification-side vocabulary used to state properties of
`getChangedFields`: paths as key lists, dot-joining, marker lookup along a
path, and value resolution along a path. -/

/-- Dot-join a list of keys into the path string the code builds. -/
def dotJoin : List JStr → JStr
  | [] => []
  | [k] => k
  | k :: ks => k ++ '.' :: dotJoin ks

/-- The keys of a marker record, in order. -/
def DirtyFields.keys : DirtyFields → List JStr
  | .nil => []
  | .consBool k _ rest => k :: rest.keys
  | .consNode k _ rest => k :: rest.keys

/-- Marker lookup in a record: the marker stored under a key, if any. -/
def DirtyFields.find : DirtyFields → JStr → Option DirtyValue
  | .nil, _ => none
  | .consBool k b rest, key => if k = key then some (.bool b) else rest.find key
  | .consNode k child rest, key => if k = key then some (.node child) else rest.find key

/-- The marker reached by following a key path through the tree: descending
continues only through object-valued markers. -/
def markerAt : DirtyFields → List JStr → Option DirtyValue
  | _, [] => none
  | df, [k] => df.find k
  | df, k :: ks =>
    match df.find k with
    | some (.node child) => markerAt child ks
    | _ => none

/-- Resolve a key path in an object, JavaScript-style (`undefined` once the
path leaves the object structure). -/
def resolvePath (obj : JsonFields) (path : List JStr) : JsonValue :=
  path.foldl getProp (JsonValue.obj obj)

/-- Resolution against the optional `originalValues` collaborator: absent
collaborator means `undefined`. -/
def resolveOrig (originalValues : Option JsonFields) (path : List JStr) : JsonValue :=
  match originalValues with
  | some ov => resolvePath ov path
  | none => .undefined

/-- The key paths of markers that are literally `true`, in walk order. -/
def truePaths : DirtyFields → List (List JStr)
  | .nil => []
  | .consBool k b rest => (if b then [[k]] else []) ++ truePaths rest
  | .consNode k child rest => (truePaths child).map (k :: ·) ++ truePaths rest

/-- A usable object key: nonempty and free of the `'.'` separator, as
JavaScript field-path keys are. -/
def goodKey (k : JStr) : Bool := decide (k ≠ []) && decide ('.' ∉ k)

/-- Well-formed marker tree: every key is usable and keys are unique at each
level, as they are for a JavaScript object. -/
def wfDirtyFields : DirtyFields → Bool
  | .nil => true
  | .consBool k _ rest => goodKey k && !decide (k ∈ rest.keys) && wfDirtyFields rest
  | .consNode k child rest =>
    goodKey k && !decide (k ∈ rest.keys) && wfDirtyFields child && wfDirtyFields rest

/-- A well-formed field path: nonempty, with usable keys. -/
def wfPath (p : List JStr) : Bool := decide (p ≠ []) && p.all goodKey

/-! ## `src/components/dev/ApiLogger.tsx` — the global log store

The module-level mutable pair `globalLogs` / `logListeners` is modelled as an
explicit store value; listeners are identified abstractly. Each mutation
returns the new store together with the synchronous notification fan-out: one
`(listener, payload)` event per registered listener, in order. The generated
`id`/`timestamp` of `addApiLog` come from the host clock and RNG, so the
fully-built entry is a parameter here. -/

/-- An `ApiLogEntry` record. -/
structure ApiLogEntry where
  id : JStr
  timestamp : Nat
  method : JStr
  url : JStr
  status : Option Int
  statusText : Option JStr
  duration : Option ℚ
  requestBody : Option JsonValue
  responseBody : Option JsonValue
  error : Option JStr

/-- The process-wide state of `ApiLogger.tsx`. -/
structure LogStore where
  globalLogs : List ApiLogEntry
  logListeners : List Nat

/-- Embedding of `addApiLog`:
`globalLogs = [newLog, ...globalLogs].slice(0, 100)` then every listener is
called with a copy of the new list. -/
def addApiLog (newLog : ApiLogEntry) (s : LogStore) :
    LogStore × List (Nat × List ApiLogEntry) :=
  let newLogs := (newLog :: s.globalLogs).take 100
  (⟨newLogs, s.logListeners⟩, s.logListeners.map (fun l => (l, newLogs)))

/-- Embedding of `clearApiLogs`: the list is emptied and every listener is
called with the empty list. -/
def clearApiLogs (s : LogStore) : LogStore × List (Nat × List ApiLogEntry) :=
  (⟨[], s.logListeners⟩, s.logListeners.map (fun l => (l, [])))

/-- The two mutations of the store. -/
inductive LogOp where
  | add (newLog : ApiLogEntry)
  | clear

/-- Apply one mutation. -/
def applyLogOp (s : LogStore) : LogOp → LogStore × List (Nat × List ApiLogEntry)
  | .add newLog => addApiLog newLog s
  | .clear => clearApiLogs s

/-- Run a sequence of mutations. -/
def runLogOps (s : LogStore) : List LogOp → LogStore
  | [] => s
  | op :: ops => runLogOps (applyLogOp s op).1 ops

/-- The changed-fields entry a path contributes, if any: present exactly when
the serialized current and original values differ. -/
def changedAt (vs : JsonFields) (ov : Option JsonFields) (r : List JStr) :
    Option (JStr × ChangedEntry) :=
  if jsonStringify (resolvePath vs r) ≠ jsonStringify (resolveOrig ov r) then
    some (dotJoin r, ⟨resolveOrig ov r, resolvePath vs r⟩)
  else none

/-- The spec's example dirty tree `\x7ba: \x7bb: true\x7d\x7d`. -/
def exDirty : DirtyFields :=
  .consNode ("a".toList) (.consBool ("b".toList) true .nil) .nil

/-- The spec's example current values `\x7ba: \x7bb: 2\x7d\x7d`. -/
def exValues : JsonFields :=
  .cons ("a".toList) (.obj (.cons ("b".toList) (.num 2) .nil)) .nil

/-- The spec's example original values `\x7ba: \x7bb: 1\x7d\x7d`. -/
def exOriginal : JsonFields :=
  .cons ("a".toList) (.obj (.cons ("b".toList) (.num 1) .nil)) .nil

/-- A concrete log entry used to exercise the store lemmas. -/
def sampleEntry : ApiLogEntry :=
  ⟨"0".toList, 0, "GET".toList, "/".toList, none, none, none, none, none, none⟩

/-! ## Theorems -/

/-- C6: `truncate` returns the string unchanged when it is no longer than the
limit, otherwise the first `n` characters followed by the suffix; in
particular `truncate("Hello World", 5) = "Hello..."` with the default
suffix. -/
theorem truncate_spec (s : JStr) (n : Nat) (suffix : JStr) :
    (s.length ≤ n → truncate s n suffix = s) ∧
    (n < s.length → truncate s n suffix = s.take n ++ suffix) ∧
    truncate ("Hello World".toList) 5 ("...".toList) = "Hello...".toList := by
  refine ⟨fun h => ?_, fun h => ?_, by decide⟩
  · simp [truncate, h]
  · simp [truncate, Nat.not_le.mpr h]

/-- Witness for `truncate_spec` at concrete inputs. -/
theorem truncate_spec_witness :
    ("Hi".toList.length ≤ 5 ∧ truncate ("Hi".toList) 5 ("...".toList) = "Hi".toList) ∧
    (5 < "Hello World".toList.length ∧
      truncate ("Hello World".toList) 5 ("...".toList) =
        "Hello World".toList.take 5 ++ "...".toList) :=
  ⟨⟨by decide, (truncate_spec ("Hi".toList) 5 ("...".toList)).1 (by decide)⟩,
   ⟨by decide, (truncate_spec ("Hello World".toList) 5 ("...".toList)).2.1 (by decide)⟩⟩

/-- Characters surviving `cleanDigits` are digits. -/
theorem mem_cleanDigits_isDigit {v : JStr} {c : Char} (h : c ∈ cleanDigits v) :
    c.isDigit = true := (List.mem_filter.mp h).2

/-- Filtering an all-digit list is the identity. -/
theorem cleanDigits_of_all_digits {l : JStr} (h : ∀ c ∈ l, c.isDigit = true) :
    cleanDigits l = l := List.filter_eq_self.mpr h

/-- The digits of a formatted phone number are the first eleven digits of the
input. -/
theorem cleanDigits_formatPhoneNumber (v : JStr) :
    cleanDigits (formatPhoneNumber v) = (cleanDigits v).take 11 := by
  have hdig : ∀ c ∈ cleanDigits v, c.isDigit = true := fun c hc => mem_cleanDigits_isDigit hc
  have htake : ∀ n, List.filter Char.isDigit ((cleanDigits v).take n) = (cleanDigits v).take n :=
    fun n => cleanDigits_of_all_digits (fun c hc => hdig c (List.take_subset n _ hc))
  have hdrop : ∀ n, List.filter Char.isDigit ((cleanDigits v).drop n) = (cleanDigits v).drop n :=
    fun n => cleanDigits_of_all_digits (fun c hc => hdig c (List.drop_subset n _ hc))
  have hdt : ∀ n m, List.filter Char.isDigit (((cleanDigits v).drop n).take m) =
      ((cleanDigits v).drop n).take m :=
    fun n m => cleanDigits_of_all_digits
      (fun c hc => hdig c (List.drop_subset n _ (List.take_subset m _ hc)))
  have hall : List.filter Char.isDigit (cleanDigits v) = cleanDigits v :=
    cleanDigits_of_all_digits hdig
  unfold formatPhoneNumber formatFromCleaned
  split
  · rename_i h
    show List.filter Char.isDigit (cleanDigits v) = _
    rw [hall, List.take_of_length_le (h.trans (by norm_num))]
  · split
    · rename_i h
      show List.filter Char.isDigit
        ((cleanDigits v).take 3 ++ '-' :: (cleanDigits v).drop 3) = _
      simp only [List.filter_append, List.filter_cons, htake, hdrop,
        show ('-').isDigit = false from rfl, Bool.false_eq_true, if_false]
      rw [List.take_append_drop, List.take_of_length_le (h.trans (by norm_num))]
    · split
      · rename_i h
        show List.filter Char.isDigit ((cleanDigits v).take 3 ++
          '-' :: (((cleanDigits v).drop 3).take 4 ++ '-' :: (cleanDigits v).drop 7)) = _
        simp only [List.filter_append, List.filter_cons, htake, hdrop, hdt,
          show ('-').isDigit = false from rfl, Bool.false_eq_true, if_false]
        rw [← List.append_assoc, ← List.take_add]
        norm_num
        exact h
      · show List.filter Char.isDigit ((cleanDigits v).take 3 ++
          '-' :: (((cleanDigits v).drop 3).take 4 ++ '-' :: ((cleanDigits v).drop 7).take 4)) = _
        simp only [List.filter_append, List.filter_cons, htake, hdrop, hdt,
          show ('-').isDigit = false from rfl, Bool.false_eq_true, if_false]
        rw [← List.append_assoc, ← List.take_add]
        norm_num
        rw [← List.take_add]

/-- `formatFromCleaned` only depends on the first eleven characters. -/
theorem formatFromCleaned_take11 (c : JStr) :
    formatFromCleaned (c.take 11) = formatFromCleaned c := by
  rcases le_or_lt c.length 11 with h | h
  · rw [List.take_of_length_le h]
  · have hlen : (c.take 11).length = 11 := by
      rw [List.length_take]; omega
    unfold formatFromCleaned
    rw [hlen]
    norm_num
    rw [if_neg (by omega), if_neg (by omega), if_neg (by omega)]
    rw [List.take_take, List.drop_take, List.drop_take, List.take_take]
    norm_num

/-- C4: `formatPhoneNumber("01012345678") = "010-1234-5678"`, and
`formatPhoneNumber` is idempotent on every input string. -/
theorem formatPhoneNumber_spec :
    formatPhoneNumber ("01012345678".toList) = "010-1234-5678".toList ∧
    ∀ x : JStr, formatPhoneNumber (formatPhoneNumber x) = formatPhoneNumber x := by
  refine ⟨by decide, fun x => ?_⟩
  show formatFromCleaned (cleanDigits (formatPhoneNumber x)) = formatPhoneNumber x
  rw [cleanDigits_formatPhoneNumber, formatFromCleaned_take11]
  rfl

/-- C5: composing the discount-rate computation with the discounted-price
computation recovers the discounted price at `(10000, 8000)`: both roundings
are exact there. -/
theorem discount_roundtrip :
    calculateDiscountedPrice 10000 (calculateDiscount 10000 8000) = 8000 := by
  have h1 : calculateDiscount 10000 8000 = 20 := by
    rw [calculateDiscount, if_neg (by norm_num)]
    show (mathRound ((10000 - 8000) / 10000 * 100 * 100) : ℚ) / 100 = 20
    rw [show ((10000 - 8000) / 10000 * 100 * 100 : ℚ) = 2000 by norm_num]
    rw [show mathRound 2000 = 2000 by
      rw [mathRound]; exact_mod_cast Int.floor_eq_iff.mpr (by norm_num)]
    norm_num
  rw [h1, calculateDiscountedPrice]
  show (mathRound ((10000 - 10000 * 20 / 100) * 100) : ℚ) / 100 = 8000
  rw [show ((10000 - 10000 * 20 / 100) * 100 : ℚ) = 800000 by norm_num]
  rw [show mathRound 800000 = 800000 by
    rw [mathRound]; exact_mod_cast Int.floor_eq_iff.mpr (by norm_num)]
  norm_num

/-- C9: `calculateDiscount` returns `0` whenever the original price is not
strictly positive, so the division by `originalPrice` is executed only when
`originalPrice > 0`. -/
theorem calculateDiscount_guard (originalPrice discountedPrice : ℚ)
    (h : originalPrice ≤ 0) : calculateDiscount originalPrice discountedPrice = 0 := by
  rw [calculateDiscount, if_pos h]

/-- Witness for `calculateDiscount_guard` at `(-5, 3)`. -/
theorem calculateDiscount_guard_witness :
    (-5 : ℚ) ≤ 0 ∧ calculateDiscount (-5) 3 = 0 :=
  ⟨by norm_num, calculateDiscount_guard (-5) 3 (by norm_num)⟩

/-- C7: the `copy` function never throws; it returns `true` exactly when the
clipboard write succeeds, recording the copied text; an unavailable API
returns `false` without touching the state; a rejected write is caught,
clearing the state and returning `false`. -/
theorem copy_spec (env : ClipboardEnv) (text : JStr) (st : Option JStr) :
    ((copy env text st).1 = true ↔ env = .available .resolves) ∧
    (env = .available .resolves → copy env text st = (true, some text)) ∧
    (env = .unavailable → copy env text st = (false, st)) ∧
    (∀ e, env = .available (.rejects e) → copy env text st = (false, none)) := by
  cases env with
  | unavailable => simp [copy]
  | available w => cases w <;> simp [copy]

/-- Witness for `copy_spec`: the three environments at concrete inputs. -/
theorem copy_spec_witness :
    copy (.available .resolves) ("hi".toList) none = (true, some ("hi".toList)) ∧
    copy .unavailable ("hi".toList) none = (false, none) ∧
    copy (.available (.rejects ("denied".toList))) ("hi".toList) (some ("hi".toList)) =
      (false, none) :=
  ⟨(copy_spec (.available .resolves) ("hi".toList) none).2.1 rfl,
   (copy_spec .unavailable ("hi".toList) none).2.2.1 rfl,
   (copy_spec (.available (.rejects ("denied".toList))) ("hi".toList)
      (some ("hi".toList))).2.2.2 ("denied".toList) rfl⟩

/-- C8: the storage read never propagates an exception: outside a browser,
on a throwing `getItem`, on an absent key, and on a failing `JSON.parse` it
yields the caller-supplied initial value; only a successful read-and-parse
yields the stored value. -/
theorem readValue_spec {T : Type} (r : StorageRead T) (i v : T) (b : Bool) :
    readValue false r i = i ∧
    readValue true (.getItemThrows) i = i ∧
    readValue true (.absent) i = i ∧
    readValue true (.parseThrows) i = i ∧
    readValue true (.parsed v) i = v ∧
    (readValue b r i = i ∨ ∃ w, r = .parsed w ∧ readValue b r i = w) := by
  refine ⟨rfl, rfl, rfl, rfl, rfl, ?_⟩
  cases b with
  | false => exact Or.inl rfl
  | true => cases r with
    | parsed w => exact Or.inr ⟨w, rfl, rfl⟩
    | getItemThrows => exact Or.inl rfl
    | absent => exact Or.inl rfl
    | parseThrows => exact Or.inl rfl

/-- One mutation leaves the log list within the 100-entry cap. -/
theorem applyLogOp_length_le (s : LogStore) (op : LogOp) :
    (applyLogOp s op).1.globalLogs.length ≤ 100 := by
  cases op with
  | add newLog => simp [applyLogOp, addApiLog]
  | clear => simp [applyLogOp, clearApiLogs]

/-- Any sequence of mutations keeps the log list within the cap. -/
theorem runLogOps_length_le (ops : List LogOp) :
    ∀ s : LogStore, s.globalLogs.length ≤ 100 →
      (runLogOps s ops).globalLogs.length ≤ 100 := by
  induction ops with
  | nil => exact fun s h => h
  | cons op ops ih => exact fun s _ => ih _ (applyLogOp_length_le s op)

/-- C3: starting from the empty global store, any sequence of `addApiLog` and
`clearApiLogs` calls leaves at most 100 entries; `addApiLog` adds exactly one
new entry (at the front, shrinking back to the cap), `clearApiLogs` empties
the list, and each mutation synchronously notifies every registered listener,
in order, with the resulting list. -/
theorem apiLogStore_spec :
    (∀ (listeners : List Nat) (ops : List LogOp),
      (runLogOps ⟨[], listeners⟩ ops).globalLogs.length ≤ 100) ∧
    (∀ (newLog : ApiLogEntry) (s : LogStore),
      (addApiLog newLog s).1.globalLogs.length = min (s.globalLogs.length + 1) 100 ∧
      (addApiLog newLog s).1.globalLogs.head? = some newLog ∧
      (addApiLog newLog s).2 =
        s.logListeners.map (fun l => (l, (addApiLog newLog s).1.globalLogs))) ∧
    (∀ s : LogStore,
      (clearApiLogs s).1.globalLogs = [] ∧
      (clearApiLogs s).2 = s.logListeners.map (fun l => (l, []))) := by
  refine ⟨fun listeners ops => runLogOps_length_le ops _ (by simp), fun newLog s => ?_, fun s => ⟨rfl, rfl⟩⟩
  refine ⟨?_, ?_, rfl⟩
  · simp only [addApiLog, List.length_take, List.length_cons]
    omega
  · simp [addApiLog, List.take_succ_cons]

/-- C10: `addApiLog` puts the new entry at the front and keeps the first 99
old entries in order; at the 100-entry cap exactly the oldest (last) entry is
evicted. -/
theorem addApiLog_front (newLog : ApiLogEntry) (s : LogStore) :
    (addApiLog newLog s).1.globalLogs = newLog :: s.globalLogs.take 99 ∧
    (s.globalLogs.length = 100 →
      (addApiLog newLog s).1.globalLogs = newLog :: s.globalLogs.dropLast) := by
  constructor
  · simp [addApiLog, List.take_succ_cons]
  · intro h
    simp [addApiLog, List.take_succ_cons, List.dropLast_eq_take, h]

/-- Witness for `addApiLog_front` at a full (100-entry) store. -/
theorem addApiLog_front_witness :
    (LogStore.mk (List.replicate 100 sampleEntry) []).globalLogs.length = 100 ∧
    (addApiLog sampleEntry ⟨List.replicate 100 sampleEntry, []⟩).1.globalLogs =
      sampleEntry :: (List.replicate 100 sampleEntry).dropLast :=
  ⟨by simp, (addApiLog_front sampleEntry ⟨List.replicate 100 sampleEntry, []⟩).2 (by simp)⟩

/-! ### Path algebra: splitting, joining, injectivity -/

/-- Unpacking `goodKey`. -/
theorem goodKey_iff {k : JStr} : goodKey k = true ↔ k ≠ [] ∧ '.' ∉ k := by
  simp [goodKey]

/-- Splitting a dot-free string yields just that string. -/
theorem splitOnDot_of_not_mem {k : JStr} (hk : '.' ∉ k) : splitOnDot k = [k] := by
  induction k with
  | nil => rfl
  | cons c cs ih =>
    have hc : ¬c = '.' := fun h => hk (h ▸ List.mem_cons_self c cs)
    have hcs : '.' ∉ cs := fun h => hk (List.mem_cons_of_mem c h)
    rw [splitOnDot, if_neg hc, ih hcs]

/-- Splitting distributes over a dot following a dot-free head. -/
theorem splitOnDot_append {k : JStr} (rest : JStr) (hk : '.' ∉ k) :
    splitOnDot (k ++ '.' :: rest) = k :: splitOnDot rest := by
  induction k with
  | nil => rw [List.nil_append, splitOnDot, if_pos rfl]
  | cons c cs ih =>
    have hc : ¬c = '.' := fun h => hk (h ▸ List.mem_cons_self c cs)
    have hcs : '.' ∉ cs := fun h => hk (List.mem_cons_of_mem c h)
    rw [List.cons_append, splitOnDot, if_neg hc, ih hcs]

/-- A joined nonempty path of usable keys is nonempty. -/
theorem dotJoin_ne_nil {p : List JStr} (hp : p ≠ [])
    (hg : ∀ k ∈ p, goodKey k = true) : dotJoin p ≠ [] := by
  match p with
  | [k] =>
    have := (goodKey_iff.mp (hg k (by simp))).1
    simpa [dotJoin] using this
  | k :: k' :: ks => simp [dotJoin]

/-- Splitting inverts joining on nonempty paths of usable keys. -/
theorem splitOnDot_dotJoin : ∀ {p : List JStr}, p ≠ [] →
    (∀ k ∈ p, goodKey k = true) → splitOnDot (dotJoin p) = p := by
  intro p
  induction p with
  | nil => exact fun hp _ => absurd rfl hp
  | cons k ks ih =>
    intro _ hg
    cases ks with
    | nil => exact splitOnDot_of_not_mem (goodKey_iff.mp (hg k (by simp))).2
    | cons k' ks' =>
      rw [show dotJoin (k :: k' :: ks') = k ++ '.' :: dotJoin (k' :: ks') from rfl,
          splitOnDot_append _ (goodKey_iff.mp (hg k (by simp))).2,
          ih (by simp) (fun x hx => hg x (List.mem_cons_of_mem _ hx))]

/-- Resolving the dot-joined path is resolving the key list. -/
theorem getNestedValue_dotJoin (obj : JsonFields) {p : List JStr} (hp : p ≠ [])
    (hg : ∀ k ∈ p, goodKey k = true) :
    getNestedValue obj (dotJoin p) = resolvePath obj p := by
  rw [getNestedValue, splitOnDot_dotJoin hp hg]; rfl

/-- The original-value conditional resolves the key list as well. -/
theorem getOriginalValue_dotJoin (ov : Option JsonFields) {p : List JStr}
    (hp : p ≠ []) (hg : ∀ k ∈ p, goodKey k = true) :
    getOriginalValue ov (dotJoin p) = resolveOrig ov p := by
  cases ov with
  | none => rfl
  | some o => exact getNestedValue_dotJoin o hp hg

/-- Joining after appending one more key. -/
theorem dotJoin_append_cons (k : JStr) (p : List JStr) (hp : p ≠ []) :
    dotJoin (p ++ [k]) = dotJoin p ++ '.' :: k := by
  induction p with
  | nil => exact absurd rfl hp
  | cons a p' ih =>
    cases p' with
    | nil => rfl
    | cons b p'' =>
      rw [show (a :: b :: p'') ++ [k] = a :: ((b :: p'') ++ [k]) from rfl]
      rw [show dotJoin (a :: ((b :: p'') ++ [k])) =
            a ++ '.' :: dotJoin ((b :: p'') ++ [k]) from rfl]
      rw [ih (by simp),
          show dotJoin (a :: b :: p'') = a ++ '.' :: dotJoin (b :: p'') from rfl]
      simp

/-- The code's incremental prefix extension agrees with appending a key to
the path list. -/
theorem joinPath_dotJoin (pl : List JStr) (k : JStr)
    (hg : ∀ x ∈ pl, goodKey x = true) :
    joinPath (dotJoin pl) k = dotJoin (pl ++ [k]) := by
  cases pl with
  | nil => rfl
  | cons a pl' =>
    rw [joinPath, if_neg (dotJoin_ne_nil (by simp) hg),
        dotJoin_append_cons k _ (by simp)]

/-- Cancellation around the first separator of two dot-free heads. -/
theorem append_dot_cons_inj : ∀ (a b x y : JStr), '.' ∉ a → '.' ∉ b →
    a ++ '.' :: x = b ++ '.' :: y → a = b ∧ x = y := by
  intro a
  induction a with
  | nil =>
    intro b x y _ hb h
    cases b with
    | nil => simpa using h
    | cons d b' =>
      rw [List.nil_append, List.cons_append] at h
      exact absurd ((List.cons.injEq _ _ _ _).mp h).1.symm
        (fun hd => hb (hd ▸ List.mem_cons_self d b'))
  | cons c a' ih =>
    intro b x y ha hb h
    cases b with
    | nil =>
      rw [List.cons_append, List.nil_append] at h
      exact absurd ((List.cons.injEq _ _ _ _).mp h).1
        (fun hd => ha (hd ▸ List.mem_cons_self c a'))
    | cons d b' =>
      rw [List.cons_append, List.cons_append] at h
      obtain ⟨hcd, h'⟩ := (List.cons.injEq _ _ _ _).mp h
      have ha' : '.' ∉ a' := fun hm => ha (List.mem_cons_of_mem c hm)
      have hb' : '.' ∉ b' := fun hm => hb (List.mem_cons_of_mem d hm)
      obtain ⟨h1, h2⟩ := ih b' x y ha' hb' h'
      exact ⟨by rw [hcd, h1], h2⟩

/-- `dotJoin` is injective on nonempty paths of usable keys. -/
theorem dotJoin_inj : ∀ (p q : List JStr), p ≠ [] → q ≠ [] →
    (∀ k ∈ p, goodKey k = true) → (∀ k ∈ q, goodKey k = true) →
    dotJoin p = dotJoin q → p = q := by
  intro p
  induction p with
  | nil => exact fun q hp _ _ _ _ => absurd rfl hp
  | cons a p' ih =>
    intro q _ hq hgp hgq h
    have hga := goodKey_iff.mp (hgp a (by simp))
    cases q with
    | nil => exact absurd rfl hq
    | cons b q' =>
      have hgb := goodKey_iff.mp (hgq b (by simp))
      cases p' with
      | nil =>
        cases q' with
        | nil => simpa [dotJoin] using h
        | cons b' q'' =>
          rw [show dotJoin [a] = a from rfl,
              show dotJoin (b :: b' :: q'') = b ++ '.' :: dotJoin (b' :: q'') from rfl] at h
          exact absurd (h ▸ (by simp : '.' ∈ b ++ '.' :: dotJoin (b' :: q''))) hga.2
      | cons a' p'' =>
        cases q' with
        | nil =>
          rw [show dotJoin (a :: a' :: p'') = a ++ '.' :: dotJoin (a' :: p'') from rfl,
              show dotJoin [b] = b from rfl] at h
          exact absurd (h ▸ (by simp : '.' ∈ a ++ '.' :: dotJoin (a' :: p''))) hgb.2
        | cons b' q'' =>
          rw [show dotJoin (a :: a' :: p'') = a ++ '.' :: dotJoin (a' :: p'') from rfl,
              show dotJoin (b :: b' :: q'') = b ++ '.' :: dotJoin (b' :: q'') from rfl] at h
          obtain ⟨h1, h2⟩ := append_dot_cons_inj a b _ _ hga.2 hgb.2 h
          have := ih (b' :: q'') (by simp) (by simp)
            (fun x hx => hgp x (List.mem_cons_of_mem _ hx))
            (fun x hx => hgq x (List.mem_cons_of_mem _ hx)) h2
          rw [h1, this]

/-! ### Marker-tree lemmas -/

/-- Unpacking well-formedness at a boolean entry. -/
theorem wf_consBool {k : JStr} {b : Bool} {rest : DirtyFields} :
    wfDirtyFields (.consBool k b rest) = true ↔
      goodKey k = true ∧ k ∉ rest.keys ∧ wfDirtyFields rest = true := by
  simp [wfDirtyFields, and_assoc]

/-- Unpacking well-formedness at an object entry. -/
theorem wf_consNode {k : JStr} {child rest : DirtyFields} :
    wfDirtyFields (.consNode k child rest) = true ↔
      goodKey k = true ∧ k ∉ rest.keys ∧ wfDirtyFields child = true ∧
        wfDirtyFields rest = true := by
  simp [wfDirtyFields, and_assoc]

/-- The empty path never denotes a `true` marker. -/
theorem nil_not_mem_truePaths : ∀ df : DirtyFields, [] ∉ truePaths df := by
  intro df
  induction df with
  | nil => simp [truePaths]
  | consBool k b rest ih =>
    intro h
    rw [truePaths] at h
    rcases List.mem_append.mp h with h | h
    · cases b <;> simp at h
    · exact ih h
  | consNode k child rest ihc ihr =>
    intro h
    rw [truePaths] at h
    rcases List.mem_append.mp h with h | h
    · obtain ⟨p, _, hp⟩ := List.mem_map.mp h
      exact List.cons_ne_nil _ _ hp
    · exact ihr h

/-- In a well-formed tree every `true`-marker path is nonempty with usable
keys. -/
theorem truePaths_good : ∀ {df : DirtyFields}, wfDirtyFields df = true →
    ∀ p ∈ truePaths df, p ≠ [] ∧ ∀ k ∈ p, goodKey k = true := by
  intro df
  induction df with
  | nil => intro _ p hp; simp [truePaths] at hp
  | consBool k b rest ih =>
    intro hwf p hp
    obtain ⟨hgk, _, hwr⟩ := wf_consBool.mp hwf
    rw [truePaths] at hp
    rcases List.mem_append.mp hp with h | h
    · cases b with
      | true =>
        simp only [if_true, List.mem_singleton] at h
        subst h
        exact ⟨List.cons_ne_nil _ _, by simpa using hgk⟩
      | false => simp at h
    · exact ih hwr p h
  | consNode k child rest ihc ihr =>
    intro hwf p hp
    obtain ⟨hgk, _, hwc, hwr⟩ := wf_consNode.mp hwf
    rw [truePaths] at hp
    rcases List.mem_append.mp hp with h | h
    · obtain ⟨p', hp', rfl⟩ := List.mem_map.mp h
      obtain ⟨_, hgood⟩ := ihc hwc p' hp'
      refine ⟨List.cons_ne_nil _ _, fun x hx => ?_⟩
      rcases List.mem_cons.mp hx with rfl | hx
      · exact hgk
      · exact hgood x hx
    · exact ihr hwr p h

/-- A key missing from the key list is not found. -/
theorem find_eq_none_of_not_mem_keys :
    ∀ {df : DirtyFields} {k : JStr}, k ∉ df.keys → df.find k = none := by
  intro df
  induction df with
  | nil => intro k _; rfl
  | consBool k' b rest ih =>
    intro k hk
    rw [DirtyFields.keys, List.mem_cons, not_or] at hk
    rw [DirtyFields.find, if_neg (fun h => hk.1 h.symm), ih hk.2]
  | consNode k' child rest ihc ihr =>
    intro k hk
    rw [DirtyFields.keys, List.mem_cons, not_or] at hk
    rw [DirtyFields.find, if_neg (fun h => hk.1 h.symm), ihr hk.2]

/-- The head of any `true`-marker path is a key of the record. -/
theorem truePaths_head_mem_keys :
    ∀ {df : DirtyFields} {k : JStr} {ks : List JStr},
      (k :: ks) ∈ truePaths df → k ∈ df.keys := by
  intro df
  induction df with
  | nil => intro k ks h; simp [truePaths] at h
  | consBool k' b rest ih =>
    intro k ks h
    rw [truePaths] at h
    rcases List.mem_append.mp h with h | h
    · cases b with
      | true =>
        simp only [if_true, List.mem_singleton] at h
        rw [DirtyFields.keys, (List.cons.injEq _ _ _ _).mp h |>.1]
        exact List.mem_cons_self _ _
      | false => simp at h
    · exact List.mem_cons_of_mem _ (ih h)
  | consNode k' child rest ihc ihr =>
    intro k ks h
    rw [truePaths] at h
    rcases List.mem_append.mp h with h | h
    · obtain ⟨p', _, hp⟩ := List.mem_map.mp h
      rw [DirtyFields.keys, ← (List.cons.injEq _ _ _ _).mp hp |>.1]
      exact List.mem_cons_self _ _
    · exact List.mem_cons_of_mem _ (ihr h)

/-- Unfolding `markerAt` on a path of length at least two. -/
theorem markerAt_cons₂ (df : DirtyFields) (k k' : JStr) (ks : List JStr) :
    markerAt df (k :: k' :: ks) =
      match df.find k with
      | some (.node child) => markerAt child (k' :: ks)
      | _ => none := rfl

/-- Walking past a boolean marker. -/
theorem markerAt_cons_find_bool {df : DirtyFields} {k : JStr} {b : Bool}
    (h : df.find k = some (.bool b)) (ks : List JStr) :
    markerAt df (k :: ks) = if ks = [] then some (.bool b) else none := by
  cases ks with
  | nil =>
    rw [if_pos rfl, show markerAt df [k] = df.find k from rfl, h]
  | cons k' ks' =>
    rw [if_neg (List.cons_ne_nil k' ks'), markerAt_cons₂, h]

/-- Walking into an object marker. -/
theorem markerAt_cons_find_node {df : DirtyFields} {k : JStr} {child : DirtyFields}
    (h : df.find k = some (.node child)) (ks : List JStr) :
    markerAt df (k :: ks) = if ks = [] then some (.node child) else markerAt child ks := by
  cases ks with
  | nil =>
    rw [if_pos rfl, show markerAt df [k] = df.find k from rfl, h]
  | cons k' ks' =>
    rw [if_neg (List.cons_ne_nil k' ks'), markerAt_cons₂, h]

/-- Walking from a missing key. -/
theorem markerAt_cons_find_none {df : DirtyFields} {k : JStr}
    (h : df.find k = none) (ks : List JStr) :
    markerAt df (k :: ks) = none := by
  cases ks with
  | nil => rw [show markerAt df [k] = df.find k from rfl, h]
  | cons k' ks' => rw [markerAt_cons₂, h]

/-- A boolean entry is transparent to paths starting with a different key. -/
theorem markerAt_consBool_ne {key k : JStr} {b : Bool} {rest : DirtyFields}
    (h : ¬key = k) (ks : List JStr) :
    markerAt (.consBool key b rest) (k :: ks) = markerAt rest (k :: ks) := by
  cases ks with
  | nil =>
    show DirtyFields.find _ k = DirtyFields.find rest k
    rw [DirtyFields.find, if_neg h]
  | cons k' ks' =>
    rw [markerAt_cons₂, markerAt_cons₂, DirtyFields.find, if_neg h]

/-- An object entry is transparent to paths starting with a different key. -/
theorem markerAt_consNode_ne {key k : JStr} {child rest : DirtyFields}
    (h : ¬key = k) (ks : List JStr) :
    markerAt (.consNode key child rest) (k :: ks) = markerAt rest (k :: ks) := by
  cases ks with
  | nil =>
    show DirtyFields.find _ k = DirtyFields.find rest k
    rw [DirtyFields.find, if_neg h]
  | cons k' ks' =>
    rw [markerAt_cons₂, markerAt_cons₂, DirtyFields.find, if_neg h]

/-- In a well-formed tree, the `true`-marker paths are exactly the paths at
which the walk reaches a literal `true`. -/
theorem mem_truePaths_iff_markerAt :
    ∀ {df : DirtyFields}, wfDirtyFields df = true →
      ∀ {p : List JStr}, p ≠ [] →
        (p ∈ truePaths df ↔ markerAt df p = some (.bool true)) := by
  intro df
  induction df with
  | nil =>
    intro _ p hp
    rw [truePaths]
    simp only [List.not_mem_nil, false_iff]
    intro h
    cases p with
    | nil => exact hp rfl
    | cons k ks =>
      have hfind : DirtyFields.find DirtyFields.nil k = none := rfl
      rw [markerAt_cons_find_none hfind ks] at h
      exact Option.noConfusion h
  | consBool key b rest ih =>
    intro hwf p hp
    obtain ⟨hgk, hnk, hwr⟩ := wf_consBool.mp hwf
    cases p with
    | nil => exact absurd rfl hp
    | cons k ks =>
      by_cases hkey : key = k
      · subst hkey
        have hfind : DirtyFields.find (.consBool key b rest) key = some (.bool b) := by
          rw [DirtyFields.find, if_pos rfl]
        rw [markerAt_cons_find_bool hfind ks]
        cases ks with
        | nil =>
          rw [if_pos rfl]
          constructor
          · intro hmem
            rw [truePaths] at hmem
            rcases List.mem_append.mp hmem with h | h
            · cases b with
              | true => rfl
              | false => simp at h
            · exact absurd (truePaths_head_mem_keys h) hnk
          · intro heq
            have hb : b = true := DirtyValue.bool.inj (Option.some.inj heq)
            subst hb
            rw [truePaths]
            exact List.mem_append.mpr (Or.inl (by simp))
        | cons k' ks' =>
          rw [if_neg (List.cons_ne_nil k' ks')]
          constructor
          · intro hmem
            exfalso
            rw [truePaths] at hmem
            rcases List.mem_append.mp hmem with h | h
            · cases b with
              | true =>
                simp only [if_true, List.mem_singleton] at h
                exact absurd (List.cons.inj h).2 (List.cons_ne_nil k' ks')
              | false => simp at h
            · exact absurd (truePaths_head_mem_keys h) hnk
          · intro heq
            exact Option.noConfusion heq
      · rw [markerAt_consBool_ne hkey ks]
        have hmem_iff : (k :: ks) ∈ truePaths (.consBool key b rest) ↔
            (k :: ks) ∈ truePaths rest := by
          rw [truePaths, List.mem_append]
          constructor
          · rintro (h | h)
            · cases b with
              | true =>
                simp only [if_true, List.mem_singleton] at h
                exact absurd (List.cons.inj h).1.symm hkey
              | false => simp at h
            · exact h
          · exact fun h => Or.inr h
        rw [hmem_iff]
        exact ih hwr (List.cons_ne_nil k ks)
  | consNode key child rest ihc ihr =>
    intro hwf p hp
    obtain ⟨hgk, hnk, hwc, hwr⟩ := wf_consNode.mp hwf
    cases p with
    | nil => exact absurd rfl hp
    | cons k ks =>
      by_cases hkey : key = k
      · subst hkey
        have hfind : DirtyFields.find (.consNode key child rest) key =
            some (.node child) := by
          rw [DirtyFields.find, if_pos rfl]
        rw [markerAt_cons_find_node hfind ks]
        have hnotrest : (key :: ks) ∉ truePaths rest :=
          fun h => absurd (truePaths_head_mem_keys h) hnk
        cases ks with
        | nil =>
          rw [if_pos rfl]
          constructor
          · intro hmem
            rw [truePaths] at hmem
            rcases List.mem_append.mp hmem with h | h
            · obtain ⟨p', hp', hpe⟩ := List.mem_map.mp h
              have : p' = [] := (List.cons.inj hpe).2
              exact absurd (this ▸ hp') (nil_not_mem_truePaths child)
            · exact absurd h hnotrest
          · intro heq
            exact DirtyValue.noConfusion (Option.some.inj heq)
        | cons k' ks' =>
          rw [if_neg (List.cons_ne_nil k' ks')]
          have hmem_iff : (key :: k' :: ks') ∈ truePaths (.consNode key child rest) ↔
              (k' :: ks') ∈ truePaths child := by
            rw [truePaths, List.mem_append]
            constructor
            · rintro (h | h)
              · obtain ⟨p', hp', hpe⟩ := List.mem_map.mp h
                rwa [← (List.cons.inj hpe).2]
              · exact absurd h hnotrest
            · intro h
              exact Or.inl (List.mem_map.mpr ⟨k' :: ks', h, rfl⟩)
          rw [hmem_iff]
          exact ihc hwc (List.cons_ne_nil k' ks')
      · rw [markerAt_consNode_ne hkey ks]
        have hmem_iff : (k :: ks) ∈ truePaths (.consNode key child rest) ↔
            (k :: ks) ∈ truePaths rest := by
          rw [truePaths, List.mem_append]
          constructor
          · rintro (h | h)
            · obtain ⟨p', hp', hpe⟩ := List.mem_map.mp h
              exact absurd (List.cons.inj hpe).1 hkey
            · exact h
          · exact fun h => Or.inr h
        rw [hmem_iff]
        exact ihr hwr (List.cons_ne_nil k ks)

/-- `filterMap` of the entry function over a single path. -/
theorem filterMap_changedAt_singleton (vs : JsonFields) (ov : Option JsonFields)
    (r : List JStr) :
    List.filterMap (changedAt vs ov) [r] =
      if jsonStringify (resolvePath vs r) ≠ jsonStringify (resolveOrig ov r) then
        [(dotJoin r, ⟨resolveOrig ov r, resolvePath vs r⟩)]
      else [] := by
  by_cases hd : jsonStringify (resolvePath vs r) ≠ jsonStringify (resolveOrig ov r)
  · rw [if_pos hd]
    simp [List.filterMap_cons, changedAt, if_pos hd]
  · rw [if_neg hd]
    simp [List.filterMap_cons, changedAt, if_neg hd]

/-- The recursive walk emits, in order, one candidate entry per `true`-marker
path under the current prefix, kept when the serialized values differ. -/
theorem processDirtyFields_eq (vs : JsonFields) (ov : Option JsonFields) :
    ∀ (df : DirtyFields) (pl : List JStr),
      wfDirtyFields df = true → (∀ x ∈ pl, goodKey x = true) →
      processDirtyFields vs ov df (dotJoin pl) =
        ((truePaths df).map (pl ++ ·)).filterMap (changedAt vs ov) := by
  intro df
  induction df with
  | nil => intro pl _ _; rfl
  | consBool key b rest ih =>
    intro pl hwf hpl
    obtain ⟨hgk, _, hwr⟩ := wf_consBool.mp hwf
    rw [processDirtyFields, ih pl hwr hpl, truePaths]
    cases b with
    | false => simp
    | true =>
      have hplk : ∀ x ∈ pl ++ [key], goodKey x = true := by
        intro x hx
        rcases List.mem_append.mp hx with h | h
        · exact hpl x h
        · rw [List.mem_singleton.mp h]; exact hgk
      have hne : pl ++ [key] ≠ [] := by simp
      rw [joinPath_dotJoin pl key hpl, getNestedValue_dotJoin vs hne hplk,
          getOriginalValue_dotJoin ov hne hplk, List.map_append, List.filterMap_append]
      simp only [if_true, List.map_cons, List.map_nil]
      rw [filterMap_changedAt_singleton]
  | consNode key child rest ihc ihr =>
    intro pl hwf hpl
    obtain ⟨hgk, _, hwc, hwr⟩ := wf_consNode.mp hwf
    have hplk : ∀ x ∈ pl ++ [key], goodKey x = true := by
      intro x hx
      rcases List.mem_append.mp hx with h | h
      · exact hpl x h
      · rw [List.mem_singleton.mp h]; exact hgk
    rw [processDirtyFields, joinPath_dotJoin pl key hpl,
        ihc (pl ++ [key]) hwc hplk, ihr pl hwr hpl, truePaths,
        List.map_append, List.filterMap_append, List.map_map]
    have hfun : (fun x => pl ++ [key] ++ x) =
        ((fun x => pl ++ x) ∘ fun x => key :: x) := by
      funext p
      simp
    rw [hfun]

/-- Unpacking `wfPath`. -/
theorem wfPath_iff {p : List JStr} :
    wfPath p = true ↔ p ≠ [] ∧ ∀ k ∈ p, goodKey k = true := by
  simp [wfPath, List.all_eq_true]

/-- When the entry function produces an entry. -/
theorem changedAt_eq_some {vs : JsonFields} {ov : Option JsonFields}
    {r : List JStr} {q : JStr} {e : ChangedEntry} :
    changedAt vs ov r = some (q, e) ↔
      (jsonStringify (resolvePath vs r) ≠ jsonStringify (resolveOrig ov r) ∧
       q = dotJoin r ∧ e = ⟨resolveOrig ov r, resolvePath vs r⟩) := by
  rw [changedAt]
  by_cases hd : jsonStringify (resolvePath vs r) ≠ jsonStringify (resolveOrig ov r)
  · rw [if_pos hd]
    constructor
    · intro h
      obtain ⟨hq, he⟩ := Prod.mk.inj (Option.some.inj h)
      exact ⟨hd, hq.symm, he.symm⟩
    · rintro ⟨_, rfl, rfl⟩
      rfl
  · rw [if_neg hd]
    constructor
    · intro h
      exact Option.noConfusion h
    · rintro ⟨hd', _, _⟩
      exact absurd hd' hd

/-- Full characterization of `getChangedFields`, for either presence of the
`originalValues` collaborator. -/
theorem getChangedFields_char (df : DirtyFields) (vs : JsonFields)
    (ov : Option JsonFields) (hdf : wfDirtyFields df = true) :
    (∀ p : List JStr, wfPath p = true → ∀ e : ChangedEntry,
      ((dotJoin p, e) ∈ getChangedFields (some df) (some vs) ov ↔
        (markerAt df p = some (.bool true) ∧
         jsonStringify (resolvePath vs p) ≠ jsonStringify (resolveOrig ov p) ∧
         e = ⟨resolveOrig ov p, resolvePath vs p⟩))) ∧
    (∀ (q : JStr) (e : ChangedEntry),
      (q, e) ∈ getChangedFields (some df) (some vs) ov →
        ∃ p, wfPath p = true ∧ q = dotJoin p) := by
  have hrun : getChangedFields (some df) (some vs) ov =
      (truePaths df).filterMap (changedAt vs ov) := by
    show processDirtyFields vs ov df (dotJoin []) = _
    rw [processDirtyFields_eq vs ov df [] hdf (by simp)]
    have hid : (fun x => ([] : List JStr) ++ x) = id := by
      funext x
      simp
    rw [hid, List.map_id]
  constructor
  · intro p hp e
    obtain ⟨hpne, hpgood⟩ := wfPath_iff.mp hp
    rw [hrun, List.mem_filterMap]
    constructor
    · rintro ⟨r, hr, hsome⟩
      obtain ⟨hd, hq, he⟩ := changedAt_eq_some.mp hsome
      obtain ⟨hrne, hrgood⟩ := truePaths_good hdf r hr
      have hrp : p = r := dotJoin_inj p r hpne hrne hpgood hrgood hq
      subst hrp
      exact ⟨(mem_truePaths_iff_markerAt hdf hpne).mp hr, hd, he⟩
    · rintro ⟨hm, hd, he⟩
      exact ⟨p, (mem_truePaths_iff_markerAt hdf hpne).mpr hm,
        changedAt_eq_some.mpr ⟨hd, rfl, he⟩⟩
  · intro q e hmem
    rw [hrun, List.mem_filterMap] at hmem
    obtain ⟨r, hr, hsome⟩ := hmem
    obtain ⟨hd, hq, he⟩ := changedAt_eq_some.mp hsome
    obtain ⟨hrne, hrgood⟩ := truePaths_good hdf r hr
    exact ⟨r, wfPath_iff.mpr ⟨hrne, hrgood⟩, hq⟩

/-- C1: over a well-formed dirty-marker tree, `getChangedFields` with both
snapshots present contains an entry at the dot-joined path exactly when the
marker there is literally `true` and the serialized resolved values differ,
the entry being `{from: original, to: current}`; object-valued markers are
recursed into, as the spec's example `{a:{b:true}}` / `{a:{b:2}}` /
`{a:{b:1}}` ↦ `{"a.b": {from: 1, to: 2}}` shows. -/
theorem getChangedFields_spec (df : DirtyFields) (vs ov : JsonFields)
    (hdf : wfDirtyFields df = true) :
    (∀ p : List JStr, wfPath p = true → ∀ e : ChangedEntry,
      ((dotJoin p, e) ∈ getChangedFields (some df) (some vs) (some ov) ↔
        (markerAt df p = some (.bool true) ∧
         jsonStringify (resolvePath vs p) ≠ jsonStringify (resolvePath ov p) ∧
         e = ⟨resolvePath ov p, resolvePath vs p⟩))) ∧
    (∀ (q : JStr) (e : ChangedEntry),
      (q, e) ∈ getChangedFields (some df) (some vs) (some ov) →
        ∃ p, wfPath p = true ∧ q = dotJoin p) ∧
    getChangedFields (some exDirty) (some exValues) (some exOriginal) =
      [("a.b".toList, ⟨.num 1, .num 2⟩)] :=
  ⟨(getChangedFields_char df vs (some ov) hdf).1,
   (getChangedFields_char df vs (some ov) hdf).2, rfl⟩

/-- Witness for `getChangedFields_spec` at the spec's own example. -/
theorem getChangedFields_spec_witness :
    wfDirtyFields exDirty = true ∧
    wfPath [("a".toList), ("b".toList)] = true ∧
    (dotJoin [("a".toList), ("b".toList)], (⟨.num 1, .num 2⟩ : ChangedEntry)) ∈
      getChangedFields (some exDirty) (some exValues) (some exOriginal) :=
  ⟨rfl, rfl,
   ((getChangedFields_spec exDirty exValues exOriginal rfl).1
      [("a".toList), ("b".toList)] rfl ⟨.num 1, .num 2⟩).mpr
    ⟨rfl, by decide, rfl⟩⟩

/-- C2 counterexample: with no `originalValues` collaborator, a leaf marked
literally `true` whose current value is absent resolves to `undefined` on
both sides, so it is NOT reported — refuting "every dirty leaf is reported as
changed". -/
theorem getChangedFields_noOriginal_counterexample :
    markerAt (.consBool ("a".toList) true .nil) [("a".toList)] =
      some (.bool true) ∧
    resolvePath JsonFields.nil [("a".toList)] = .undefined ∧
    getChangedFields (some (.consBool ("a".toList) true .nil))
      (some JsonFields.nil) none = [] :=
  ⟨rfl, rfl, rfl⟩

/-- C2 (amended): with no `originalValues` collaborator, `getChangedFields`
reports exactly the leaves marked literally `true` whose resolved current
value serializes differently from `undefined`, with `from = undefined` and
`to` the resolved current value; a path absent from `values` resolves to
`undefined`, is compared as such, and is therefore omitted. -/
theorem getChangedFields_noOriginal_spec (df : DirtyFields) (vs : JsonFields)
    (hdf : wfDirtyFields df = true) :
    (∀ p : List JStr, wfPath p = true → ∀ e : ChangedEntry,
      ((dotJoin p, e) ∈ getChangedFields (some df) (some vs) none ↔
        (markerAt df p = some (.bool true) ∧
         jsonStringify (resolvePath vs p) ≠ none ∧
         e = ⟨.undefined, resolvePath vs p⟩))) ∧
    (∀ (q : JStr) (e : ChangedEntry),
      (q, e) ∈ getChangedFields (some df) (some vs) none →
        ∃ p, wfPath p = true ∧ q = dotJoin p) :=
  ⟨(getChangedFields_char df vs none hdf).1,
   (getChangedFields_char df vs none hdf).2⟩

/-- Witness for `getChangedFields_noOriginal_spec`: a present dirty value is
reported with `from = undefined`. -/
theorem getChangedFields_noOriginal_spec_witness :
    wfDirtyFields (.consBool ("a".toList) true .nil) = true ∧
    (dotJoin [("a".toList)], (⟨.undefined, .num 2⟩ : ChangedEntry)) ∈
      getChangedFields (some (.consBool ("a".toList) true .nil))
        (some (.cons ("a".toList) (.num 2) .nil)) none :=
  ⟨rfl,
   ((getChangedFields_noOriginal_spec (.consBool ("a".toList) true .nil)
      (.cons ("a".toList) (.num 2) .nil) rfl).1 [("a".toList)] rfl
      ⟨.undefined, .num 2⟩).mpr ⟨rfl, by decide, rfl⟩⟩

end GoodchuckUtils
